import Mathlib

/-!
Verification of the coordinate-mapping core of `bam_slice`
(`src/bam_slice/bam_slice.py`): interval merging, alignment-trace
gap-filling, and binary-search resolution of a reference interval to a
read-index range.

Intervals are modelled as pairs of integers `(start, end)` (the Python code
uses two-element lists).  Raw alignment-trace columns are pairs of
`Option Int` (the Python code uses tuples whose components may be `None`).
Python's `bisect.bisect_left` / `bisect.bisect_right` are embedded as the
standard binary-search loops they implement, indexing with `List.getD`
(every access the loop performs is in bounds).  Python slices
`xs[lo:hi]` with `0 ≤ lo, hi` become `(xs.drop lo).take (hi - lo)`, which
agrees with Python's clamping semantics.
-/

namespace BamSlice

/-- `outside_interval` from `bam_slice.py`: the second interval lies outside
(does not overlap) the first when its start is at least the first's end.
Touching intervals count as non-overlapping. -/
def outside_interval (first_interval second_interval : Int × Int) : Bool :=
  decide (second_interval.1 ≥ first_interval.2)

/-- `extend_interval` from `bam_slice.py`: keeps the first interval's start
and takes the incoming interval's end (not the max of the two ends). -/
def extend_interval (interval_to_extend interval : Int × Int) : Int × Int :=
  (interval_to_extend.1, interval.2)

/-- The sweep loop of `merge_overlap_intervals`, with the accumulator
(`cached_interval` in the Python code) made explicit. -/
def merge_loop (cached_interval : Int × Int) :
    List (Int × Int) → List (Int × Int)
  | [] => [cached_interval]
  | interval :: rest =>
    if outside_interval cached_interval interval then
      cached_interval :: merge_loop interval rest
    else
      merge_loop (extend_interval cached_interval interval) rest

/-- `merge_overlap_intervals` from `bam_slice.py`: the accumulator starts as
`None` and is seeded with the first interval, so the empty input yields the
empty output and otherwise the sweep runs over the tail. -/
def merge_overlap_intervals : List (Int × Int) → List (Int × Int)
  | [] => []
  | interval :: rest => merge_loop interval rest

/-- The set of integer points covered by a list of half-open intervals
`[start, end)` (the spec's coordinate convention). -/
def covers (intervals : List (Int × Int)) (p : Int) : Prop :=
  ∃ iv ∈ intervals, iv.1 ≤ p ∧ p < iv.2

instance (intervals : List (Int × Int)) (p : Int) :
    Decidable (covers intervals p) := by
  unfold covers; infer_instance

/-- Input sorted ascending by interval start. -/
def sortedByStart (intervals : List (Int × Int)) : Prop :=
  intervals.Pairwise (fun a b => a.1 ≤ b.1)

instance (intervals : List (Int × Int)) : Decidable (sortedByStart intervals) := by
  unfold sortedByStart; infer_instance

/-- Input sorted ascending by start with non-decreasing ends. -/
def sortedByStartEnd (intervals : List (Int × Int)) : Prop :=
  intervals.Pairwise (fun a b => a.1 ≤ b.1 ∧ a.2 ≤ b.2)

instance (intervals : List (Int × Int)) : Decidable (sortedByStartEnd intervals) := by
  unfold sortedByStartEnd; infer_instance

/-- The loop body of `handle_nones` from `bam_slice.py`.  The two running
`previous_*` values are threaded explicitly; note that the value emitted for
a column is in both branches of the Python `if` exactly the new running
value (`Option.getD`). -/
def handle_nones_go :
    List (Option Int × Option Int) → Int → Int → List Int × List Int
  | [], _, _ => ([], [])
  | (read_pos, ref_pos) :: rest, previous_read_pos, previous_ref_pos =>
    let rd := read_pos.getD previous_read_pos
    let rf := ref_pos.getD previous_ref_pos
    let tail := handle_nones_go rest rd rf
    (rd :: tail.1, rf :: tail.2)

/-- `handle_nones` from `bam_slice.py`: both running previous values start
at `-1`; returns `(read_positions, ref_positions)`. -/
def handle_nones (aligned_pairs : List (Option Int × Option Int)) :
    List Int × List Int :=
  handle_nones_go aligned_pairs (-1) (-1)

/-- The binary-search loop of Python's `bisect.bisect_left`. -/
def bisect_left_go (a : List Int) (x : Int) (lo hi : Nat) : Nat :=
  if _h : lo < hi then
    if a.getD ((lo + hi) / 2) 0 < x then
      bisect_left_go a x ((lo + hi) / 2 + 1) hi
    else
      bisect_left_go a x lo ((lo + hi) / 2)
  else lo
termination_by hi - lo
decreasing_by all_goals omega

/-- Python's `bisect.bisect_left a x` with the default bounds. -/
def bisect_left (a : List Int) (x : Int) : Nat :=
  bisect_left_go a x 0 a.length

/-- The binary-search loop of Python's `bisect.bisect_right`. -/
def bisect_right_go (a : List Int) (x : Int) (lo hi : Nat) : Nat :=
  if _h : lo < hi then
    if x < a.getD ((lo + hi) / 2) 0 then
      bisect_right_go a x lo ((lo + hi) / 2)
    else
      bisect_right_go a x ((lo + hi) / 2 + 1) hi
  else lo
termination_by hi - lo
decreasing_by all_goals omega

/-- Python's `bisect.bisect_right a x` with the default bounds. -/
def bisect_right (a : List Int) (x : Int) : Nat :=
  bisect_right_go a x 0 a.length

/-- `ref_interval_indexes` from `bam_slice.py`: left bisect of the interval
start and right bisect of the interval end within `ref`. -/
def ref_interval_indexes (interval : Int × Int) (ref : List Int) : Nat × Nat :=
  (bisect_left ref interval.1, bisect_right ref interval.2)

/-- The intermediate `read_indexes` slice of `get_subsequence_indexes`:
`read_positions[start_index:end_index]`. -/
def read_slice (interval : Int × Int) (read_positions ref_positions : List Int) :
    List Int :=
  let idxs := ref_interval_indexes interval ref_positions
  (read_positions.drop idxs.1).take (idxs.2 - idxs.1)

/-- `get_subsequence_indexes` from `bam_slice.py`: returns `none` when the
slice of read positions is empty, otherwise the pair of the slice's first
element (clamped up to `0` when negative) and its last element. -/
def get_subsequence_indexes (interval : Int × Int)
    (clean_aligned_pairs : List Int × List Int) : Option (Int × Int) :=
  let read_indexes :=
    read_slice interval clean_aligned_pairs.1 clean_aligned_pairs.2
  if h : read_indexes = [] then none
  else
    let read_start_index := read_indexes.head h
    let read_end_index := read_indexes.getLast h
    some (if read_start_index < 0 then 0 else read_start_index, read_end_index)

/-! ## Lemmas about interval merging -/

/-- The head of `merge_loop cached rest` always carries `cached`'s start. -/
lemma merge_loop_head (rest : List (Int × Int)) :
    ∀ cached : Int × Int, ∃ e tl, merge_loop cached rest = (cached.1, e) :: tl := by
  induction rest with
  | nil => intro cached; exact ⟨cached.2, [], rfl⟩
  | cons interval rest ih =>
    intro cached
    by_cases hout : outside_interval cached interval
    · exact ⟨cached.2, merge_loop interval rest, by simp [merge_loop, hout]⟩
    · obtain ⟨e, tl, htl⟩ := ih (extend_interval cached interval)
      exact ⟨e, tl, by simp [merge_loop, hout]; exact htl⟩

/-- Adjacent intervals produced by the sweep loop never strictly overlap. -/
lemma merge_loop_chain (rest : List (Int × Int)) :
    ∀ cached : Int × Int,
      (merge_loop cached rest).Chain' (fun a b => a.2 ≤ b.1) := by
  induction rest with
  | nil => intro cached; simp [merge_loop]
  | cons interval rest ih =>
    intro cached
    by_cases hout : outside_interval cached interval
    · rw [merge_loop, if_pos hout]
      obtain ⟨e, tl, htl⟩ := merge_loop_head rest interval
      rw [htl]
      refine List.Chain'.cons ?_ (htl ▸ ih interval)
      simpa [outside_interval] using hout
    · rw [merge_loop, if_neg hout]
      exact ih (extend_interval cached interval)

/-- A list whose adjacent members already satisfy the non-overlap relation is
left unchanged by the sweep loop. -/
lemma merge_loop_of_chain (rest : List (Int × Int)) :
    ∀ cached : Int × Int,
      (cached :: rest).Chain' (fun a b => a.2 ≤ b.1) →
      merge_loop cached rest = cached :: rest := by
  induction rest with
  | nil => intro cached _; rfl
  | cons interval rest ih =>
    intro cached hchain
    rw [List.chain'_cons] at hchain
    have hout : outside_interval cached interval := by
      simpa [outside_interval] using hchain.1
    rw [merge_loop, if_pos hout, ih interval hchain.2]

/-- Non-overlapping adjacency of the full merge output, for any input. -/
lemma merge_chain (intervals : List (Int × Int)) :
    (merge_overlap_intervals intervals).Chain' (fun a b => a.2 ≤ b.1) := by
  cases intervals with
  | nil => simp [merge_overlap_intervals]
  | cons interval rest => exact merge_loop_chain rest interval

/-- Covered points of the sweep loop's output: with ends non-decreasing along
the input, the loop neither loses nor adds covered points. -/
lemma merge_loop_covers (rest : List (Int × Int)) :
    ∀ cached : Int × Int,
      rest.Pairwise (fun a b => a.1 ≤ b.1 ∧ a.2 ≤ b.2) →
      (∀ iv ∈ rest, cached.1 ≤ iv.1 ∧ cached.2 ≤ iv.2) →
      ∀ p : Int,
        covers (merge_loop cached rest) p ↔
          (cached.1 ≤ p ∧ p < cached.2) ∨ covers rest p := by
  induction rest with
  | nil =>
    intro cached _ _ p
    simp [merge_loop, covers]
  | cons interval rest ih =>
    intro cached hpw hle p
    rw [List.pairwise_cons] at hpw
    have hci := hle interval (by simp)
    have hcr : ∀ iv ∈ rest, cached.1 ≤ iv.1 ∧ cached.2 ≤ iv.2 := by
      intro iv hiv; exact hle iv (by simp [hiv])
    by_cases hout : outside_interval cached interval
    · rw [merge_loop, if_pos hout]
      have hrec := ih interval hpw.2 hpw.1 p
      have hcons : covers (cached :: merge_loop interval rest) p ↔
          (cached.1 ≤ p ∧ p < cached.2) ∨ covers (merge_loop interval rest) p := by
        simp [covers]
      rw [hcons, hrec]
      have hcons' : covers (interval :: rest) p ↔
          (interval.1 ≤ p ∧ p < interval.2) ∨ covers rest p := by
        simp [covers]
      rw [hcons']
    · rw [merge_loop, if_neg hout]
      have hib : ¬ (interval.1 ≥ cached.2) := by
        simpa [outside_interval] using hout
      have hrec := ih (extend_interval cached interval)
        hpw.2
        (by
          intro iv hiv
          exact ⟨le_trans hci.1 (hpw.1 iv hiv).1, (hpw.1 iv hiv).2⟩)
        p
      rw [hrec]
      have hcons' : covers (interval :: rest) p ↔
          (interval.1 ≤ p ∧ p < interval.2) ∨ covers rest p := by
        simp [covers]
      rw [hcons']
      unfold extend_interval
      by_cases hq : covers rest p
      · simp [hq]
      · simp only [hq, or_false]
        have h1 := hci.1
        have h2 := hci.2
        omega

/-! ## Claim theorems about interval merging -/

/-- C1 (counterexample): the coverage claim fails for an input that is
sorted ascending by start but whose ends decrease.  `[[1,10],[2,3]]` is
start-sorted, yet `merge_overlap_intervals` shrinks the accumulator's end to
`3` (because `extend_interval` takes the incoming end, not the max), so the
point `5` covered by the input is lost. -/
theorem merge_coverage_counterexample :
    sortedByStart [((1 : Int), (10 : Int)), (2, 3)] ∧
    covers [((1 : Int), (10 : Int)), (2, 3)] 5 ∧
    ¬ covers (merge_overlap_intervals [((1 : Int), (10 : Int)), (2, 3)]) 5 := by
  decide

/-- C1 (amended): for every input sorted ascending by start whose ends are
also non-decreasing, the union of integer points covered by the output of
`merge_overlap_intervals` equals the union of points covered by the input. -/
theorem merge_coverage (X : List (Int × Int)) (h : sortedByStartEnd X)
    (p : Int) :
    covers (merge_overlap_intervals X) p ↔ covers X p := by
  cases X with
  | nil => simp [merge_overlap_intervals]
  | cons interval rest =>
    rw [sortedByStartEnd, List.pairwise_cons] at h
    have hrec := merge_loop_covers rest interval h.2 h.1 p
    have hmerge : merge_overlap_intervals (interval :: rest) =
        merge_loop interval rest := rfl
    rw [hmerge, hrec]
    simp [covers]

theorem merge_coverage_witness :
    sortedByStartEnd [((1 : Int), (4 : Int)), (3, 7)] ∧
    (covers (merge_overlap_intervals [((1 : Int), (4 : Int)), (3, 7)]) 5 ↔
      covers [((1 : Int), (4 : Int)), (3, 7)] 5) :=
  ⟨by decide, merge_coverage [((1 : Int), (4 : Int)), (3, 7)] (by decide) 5⟩

/-- C4: for every start-sorted input, every pair of adjacent intervals
`(a, b)` in the output of `merge_overlap_intervals` satisfies
`b.start ≥ a.end` (touching intervals remain separate), and in particular
`merge [[6,9],[8,12],[11,14],[14,16]] = [[6,14],[14,16]]`. -/
theorem merge_nonoverlap_touch :
    (∀ X : List (Int × Int), sortedByStart X →
      (merge_overlap_intervals X).Chain' (fun a b => a.2 ≤ b.1)) ∧
    merge_overlap_intervals [((6 : Int), (9 : Int)), (8, 12), (11, 14), (14, 16)] =
      [(6, 14), (14, 16)] :=
  ⟨fun X _ => merge_chain X, by decide⟩

theorem merge_nonoverlap_touch_witness :
    sortedByStart [((6 : Int), (9 : Int)), (8, 12), (11, 14), (14, 16)] ∧
    (merge_overlap_intervals
        [((6 : Int), (9 : Int)), (8, 12), (11, 14), (14, 16)]).Chain'
      (fun a b => a.2 ≤ b.1) :=
  ⟨by decide,
    merge_nonoverlap_touch.1 [((6 : Int), (9 : Int)), (8, 12), (11, 14), (14, 16)]
      (by decide)⟩

/-- C7: `merge_overlap_intervals` is idempotent on start-sorted input (in
fact on any input: its output always satisfies the adjacent non-overlap
relation, and the sweep leaves such lists unchanged). -/
theorem merge_idempotent (X : List (Int × Int)) (_h : sortedByStart X) :
    merge_overlap_intervals (merge_overlap_intervals X) =
      merge_overlap_intervals X := by
  cases hX : merge_overlap_intervals X with
  | nil => simp [merge_overlap_intervals]
  | cons interval rest =>
    have hchain := merge_chain X
    rw [hX] at hchain
    exact merge_loop_of_chain rest interval hchain

theorem merge_idempotent_witness :
    sortedByStart [((1 : Int), (4 : Int)), (3, 7), (10, 14)] ∧
    merge_overlap_intervals
        (merge_overlap_intervals [((1 : Int), (4 : Int)), (3, 7), (10, 14)]) =
      merge_overlap_intervals [((1 : Int), (4 : Int)), (3, 7), (10, 14)] :=
  ⟨by decide, merge_idempotent [((1 : Int), (4 : Int)), (3, 7), (10, 14)] (by decide)⟩

/-- C8 (counterexample): on input whose second start is below the first
start, `merge_overlap_intervals` does not fail fast: it silently returns a
mis-merged result.  At `[[5,10],[1,3]]` it returns `[[5,3]]`, losing the
covered point `8`, and signals nothing. -/
theorem merge_no_failfast_counterexample :
    merge_overlap_intervals [((5 : Int), (10 : Int)), (1, 3)] = [(5, 3)] ∧
    covers [((5 : Int), (10 : Int)), (1, 3)] 8 ∧
    ¬ covers (merge_overlap_intervals [((5 : Int), (10 : Int)), (1, 3)]) 8 := by
  decide

/-- C8 (amended): `merge_overlap_intervals` performs no order check and
signals no error on out-of-order input; it returns a normal (possibly
mis-merged) result list — here `merge [[5,10],[1,3]] = [[5,3]]`. -/
theorem merge_unsorted_returns_result :
    merge_overlap_intervals [((5 : Int), (10 : Int)), (1, 3)] = [(5, 3)] := by
  decide

/-! ## Lemmas and claim theorems about gap-filling -/

/-- Both output sequences of the gap-fill loop have the input's length. -/
lemma handle_nones_go_length (l : List (Option Int × Option Int)) :
    ∀ pr pf : Int,
      (handle_nones_go l pr pf).1.length = l.length ∧
      (handle_nones_go l pr pf).2.length = l.length := by
  induction l with
  | nil => intro pr pf; simp [handle_nones_go]
  | cons pair rest ih =>
    intro pr pf
    obtain ⟨read_pos, ref_pos⟩ := pair
    simp [handle_nones_go, ih]

/-- C5: `handle_nones` always returns two sequences of exactly the input's
length (and, being `List Int`-valued, they contain no absent values by
construction); in particular
`handle_nones [(1,1),(None,2),(2,None)] = ([1,1,2],[1,2,2])`. -/
theorem handle_nones_total_length :
    (∀ l : List (Option Int × Option Int),
      (handle_nones l).1.length = l.length ∧
      (handle_nones l).2.length = l.length) ∧
    handle_nones [(some 1, some 1), (none, some 2), (some 2, none)] =
      ([1, 1, 2], [1, 2, 2]) :=
  ⟨fun l => handle_nones_go_length l (-1) (-1), by decide⟩

/-- The gap-fill loop keeps both outputs non-decreasing, provided the
running previous value is below every later present value and present
values are pairwise non-decreasing; the previous values are prepended so
that the chain condition at the head is part of the statement. -/
lemma handle_nones_go_chain (l : List (Option Int × Option Int)) :
    ∀ pr pf : Int,
      (l.filterMap Prod.fst).Pairwise (· ≤ ·) →
      (l.filterMap Prod.snd).Pairwise (· ≤ ·) →
      (∀ v ∈ l.filterMap Prod.fst, pr ≤ v) →
      (∀ v ∈ l.filterMap Prod.snd, pf ≤ v) →
      (pr :: (handle_nones_go l pr pf).1).Chain' (· ≤ ·) ∧
      (pf :: (handle_nones_go l pr pf).2).Chain' (· ≤ ·) := by
  induction l with
  | nil => intro pr pf _ _ _ _; simp [handle_nones_go]
  | cons pair rest ih =>
    intro pr pf h1 h2 h3 h4
    obtain ⟨read_pos, ref_pos⟩ := pair
    have hfst : ((read_pos, ref_pos) :: rest).filterMap Prod.fst =
        (match read_pos with
          | some v => v :: rest.filterMap Prod.fst
          | none => rest.filterMap Prod.fst) := by
      cases read_pos <;> simp [List.filterMap_cons]
    have hsnd : ((read_pos, ref_pos) :: rest).filterMap Prod.snd =
        (match ref_pos with
          | some v => v :: rest.filterMap Prod.snd
          | none => rest.filterMap Prod.snd) := by
      cases ref_pos <;> simp [List.filterMap_cons]
    have hrd : pr ≤ read_pos.getD pr ∧
        (rest.filterMap Prod.fst).Pairwise (· ≤ ·) ∧
        (∀ v ∈ rest.filterMap Prod.fst, read_pos.getD pr ≤ v) := by
      cases read_pos with
      | none => exact ⟨le_refl pr, by rw [hfst] at h1; exact h1, by
          intro v hv; exact h3 v (by rw [hfst]; exact hv)⟩
      | some v₀ =>
        rw [hfst] at h1 h3
        rw [List.pairwise_cons] at h1
        exact ⟨h3 v₀ (by simp), h1.2, h1.1⟩
    have hrf : pf ≤ ref_pos.getD pf ∧
        (rest.filterMap Prod.snd).Pairwise (· ≤ ·) ∧
        (∀ v ∈ rest.filterMap Prod.snd, ref_pos.getD pf ≤ v) := by
      cases ref_pos with
      | none => exact ⟨le_refl pf, by rw [hsnd] at h2; exact h2, by
          intro v hv; exact h4 v (by rw [hsnd]; exact hv)⟩
      | some v₀ =>
        rw [hsnd] at h2 h4
        rw [List.pairwise_cons] at h2
        exact ⟨h4 v₀ (by simp), h2.2, h2.1⟩
    have hrec := ih (read_pos.getD pr) (ref_pos.getD pf)
      hrd.2.1 hrf.2.1 hrd.2.2 hrf.2.2
    constructor
    · show (pr :: read_pos.getD pr :: _).Chain' (· ≤ ·)
      rw [List.chain'_cons]
      exact ⟨hrd.1, hrec.1⟩
    · show (pf :: ref_pos.getD pf :: _).Chain' (· ≤ ·)
      rw [List.chain'_cons]
      exact ⟨hrf.1, hrec.2⟩

/-- The property "non-decreasing except that a leading run of entries may be
the sentinel `-1`". -/
def leadingSentinelMono (l : List Int) : Prop :=
  ∃ k : Nat, (∀ v ∈ l.take k, v = -1) ∧ (l.drop k).Chain' (· ≤ ·)

/-- C6: for every raw trace whose present components are non-decreasing and
non-negative, both output sequences of `handle_nones` are non-decreasing
except that a leading run of entries may be the sentinel `-1` (in fact both
are non-decreasing outright, the sentinel `-1` lying below every
non-negative present value). -/
theorem handle_nones_monotone (l : List (Option Int × Option Int))
    (h1 : (l.filterMap Prod.fst).Pairwise (· ≤ ·))
    (h2 : (l.filterMap Prod.snd).Pairwise (· ≤ ·))
    (h3 : ∀ v ∈ l.filterMap Prod.fst, 0 ≤ v)
    (h4 : ∀ v ∈ l.filterMap Prod.snd, 0 ≤ v) :
    leadingSentinelMono (handle_nones l).1 ∧
    leadingSentinelMono (handle_nones l).2 := by
  have hchain := handle_nones_go_chain l (-1) (-1) h1 h2
    (fun v hv => le_trans (by norm_num) (h3 v hv))
    (fun v hv => le_trans (by norm_num) (h4 v hv))
  exact ⟨⟨0, by simp, by simpa using hchain.1.tail⟩,
    ⟨0, by simp, by simpa using hchain.2.tail⟩⟩

theorem handle_nones_monotone_witness :
    (([(some 0, some 5), (none, some 6)] :
        List (Option Int × Option Int)).filterMap Prod.fst).Pairwise (· ≤ ·) ∧
    (leadingSentinelMono
        (handle_nones [(some 0, some 5), (none, some 6)]).1 ∧
      leadingSentinelMono
        (handle_nones [(some 0, some 5), (none, some 6)]).2) :=
  ⟨by decide,
    handle_nones_monotone [(some 0, some 5), (none, some 6)]
      (by decide) (by decide) (by decide) (by decide)⟩

/-- The gap-fill loop over an appended trace: the state after the first part
is the last present value of each component, or the incoming previous value
when none is present. -/
lemma handle_nones_go_append (l₁ : List (Option Int × Option Int)) :
    ∀ (l₂ : List (Option Int × Option Int)) (pr pf : Int),
      handle_nones_go (l₁ ++ l₂) pr pf =
        ((handle_nones_go l₁ pr pf).1 ++
            (handle_nones_go l₂ ((l₁.filterMap Prod.fst).getLastD pr)
              ((l₁.filterMap Prod.snd).getLastD pf)).1,
          (handle_nones_go l₁ pr pf).2 ++
            (handle_nones_go l₂ ((l₁.filterMap Prod.fst).getLastD pr)
              ((l₁.filterMap Prod.snd).getLastD pf)).2) := by
  induction l₁ with
  | nil => intro l₂ pr pf; simp [handle_nones_go]
  | cons pair rest ih =>
    intro l₂ pr pf
    obtain ⟨read_pos, ref_pos⟩ := pair
    have hgl1 : (((read_pos, ref_pos) :: rest).filterMap Prod.fst).getLastD pr =
        (rest.filterMap Prod.fst).getLastD (read_pos.getD pr) := by
      cases read_pos with
      | none => rfl
      | some v =>
        rw [show ((some v, ref_pos) :: rest).filterMap Prod.fst =
              v :: rest.filterMap Prod.fst from by simp [List.filterMap_cons],
          List.getLastD_cons]
        rfl
    have hgl2 : (((read_pos, ref_pos) :: rest).filterMap Prod.snd).getLastD pf =
        (rest.filterMap Prod.snd).getLastD (ref_pos.getD pf) := by
      cases ref_pos with
      | none => rfl
      | some v =>
        rw [show ((read_pos, some v) :: rest).filterMap Prod.snd =
              v :: rest.filterMap Prod.snd from by simp [List.filterMap_cons],
          List.getLastD_cons]
        rfl
    have step : handle_nones_go (((read_pos, ref_pos) :: rest) ++ l₂) pr pf =
        (read_pos.getD pr ::
            (handle_nones_go (rest ++ l₂) (read_pos.getD pr) (ref_pos.getD pf)).1,
          ref_pos.getD pf ::
            (handle_nones_go (rest ++ l₂) (read_pos.getD pr) (ref_pos.getD pf)).2) :=
      rfl
    rw [step, ih l₂ (read_pos.getD pr) (ref_pos.getD pf), hgl1, hgl2]
    simp [handle_nones_go]

/-- C9: a trace column with both components absent is tolerated by sentinel
propagation: in each output sequence, the column's entry is the last present
value of that component among the preceding columns, or `-1` when none
precedes.  `handle_nones` is total (it is a plain function on all traces),
so no input is rejected. -/
theorem handle_nones_both_absent (l₁ l₂ : List (Option Int × Option Int)) :
    (handle_nones (l₁ ++ (none, none) :: l₂)).1[l₁.length]? =
      some ((l₁.filterMap Prod.fst).getLastD (-1)) ∧
    (handle_nones (l₁ ++ (none, none) :: l₂)).2[l₁.length]? =
      some ((l₁.filterMap Prod.snd).getLastD (-1)) := by
  rw [handle_nones, handle_nones_go_append l₁ ((none, none) :: l₂) (-1) (-1)]
  have hlen := handle_nones_go_length l₁ (-1) (-1)
  constructor
  · rw [List.getElem?_append_right (by rw [hlen.1])]
    rw [hlen.1, Nat.sub_self]
    simp [handle_nones_go]
  · rw [List.getElem?_append_right (by rw [hlen.2])]
    rw [hlen.2, Nat.sub_self]
    simp [handle_nones_go]

/-! ## Lemmas about binary search and position mapping -/

/-- Index-monotone access form of a non-decreasing list. -/
def listMono (a : List Int) : Prop :=
  ∀ i j : Nat, i ≤ j → j < a.length → a.getD i 0 ≤ a.getD j 0

lemma pairwise_listMono (a : List Int) (h : a.Pairwise (· ≤ ·)) : listMono a := by
  intro i j hij hj
  rcases Nat.lt_or_ge i j with hlt | hge
  · have hi : i < a.length := Nat.lt_trans hlt hj
    have := (List.pairwise_iff_getElem.mp h) i j hi hj hlt
    simpa [List.getD_eq_getElem?_getD, List.getElem?_eq_getElem, hi, hj] using this
  · have : i = j := Nat.le_antisymm hij hge
    rw [this]

/-- Correctness of the `bisect_left` loop on a non-decreasing list: the
result splits the indices into a prefix of values `< x` and a suffix of
values `≥ x`. -/
lemma bisect_left_go_spec (a : List Int) (x : Int) (hm : listMono a) :
    ∀ n lo hi : Nat, hi - lo ≤ n → lo ≤ hi → hi ≤ a.length →
      (∀ i, i < lo → a.getD i 0 < x) →
      (∀ i, hi ≤ i → i < a.length → x ≤ a.getD i 0) →
      lo ≤ bisect_left_go a x lo hi ∧ bisect_left_go a x lo hi ≤ hi ∧
      (∀ i, i < bisect_left_go a x lo hi → a.getD i 0 < x) ∧
      (∀ i, bisect_left_go a x lo hi ≤ i → i < a.length → x ≤ a.getD i 0) := by
  intro n
  induction n with
  | zero =>
    intro lo hi h1 h2 h3 h4 h5
    have hlh : ¬ lo < hi := by omega
    rw [bisect_left_go, dif_neg hlh]
    exact ⟨Nat.le_refl _, h2, h4, fun i hi' hlen => h5 i (by omega) hlen⟩
  | succ n ih =>
    intro lo hi h1 h2 h3 h4 h5
    by_cases hlh : lo < hi
    · rw [bisect_left_go, dif_pos hlh]
      by_cases hcmp : a.getD ((lo + hi) / 2) 0 < x
      · rw [if_pos hcmp]
        obtain ⟨r1, r2, r3, r4⟩ := ih ((lo + hi) / 2 + 1) hi (by omega) (by omega) h3
          (fun i hi' => lt_of_le_of_lt (hm i ((lo + hi) / 2) (by omega) (by omega)) hcmp)
          h5
        exact ⟨by omega, r2, r3, r4⟩
      · rw [if_neg hcmp]
        obtain ⟨r1, r2, r3, r4⟩ := ih lo ((lo + hi) / 2) (by omega) (by omega)
          (by omega) h4
          (fun i hi' hlen => le_trans (le_of_not_lt hcmp) (hm ((lo + hi) / 2) i hi' hlen))
        exact ⟨r1, by omega, r3, r4⟩
    · rw [bisect_left_go, dif_neg hlh]
      exact ⟨Nat.le_refl _, h2, h4, fun i hi' hlen => h5 i (by omega) hlen⟩

/-- Correctness of the `bisect_right` loop on a non-decreasing list: the
result splits the indices into a prefix of values `≤ x` and a suffix of
values `> x`. -/
lemma bisect_right_go_spec (a : List Int) (x : Int) (hm : listMono a) :
    ∀ n lo hi : Nat, hi - lo ≤ n → lo ≤ hi → hi ≤ a.length →
      (∀ i, i < lo → a.getD i 0 ≤ x) →
      (∀ i, hi ≤ i → i < a.length → x < a.getD i 0) →
      lo ≤ bisect_right_go a x lo hi ∧ bisect_right_go a x lo hi ≤ hi ∧
      (∀ i, i < bisect_right_go a x lo hi → a.getD i 0 ≤ x) ∧
      (∀ i, bisect_right_go a x lo hi ≤ i → i < a.length → x < a.getD i 0) := by
  intro n
  induction n with
  | zero =>
    intro lo hi h1 h2 h3 h4 h5
    have hlh : ¬ lo < hi := by omega
    rw [bisect_right_go, dif_neg hlh]
    exact ⟨Nat.le_refl _, h2, h4, fun i hi' hlen => h5 i (by omega) hlen⟩
  | succ n ih =>
    intro lo hi h1 h2 h3 h4 h5
    by_cases hlh : lo < hi
    · rw [bisect_right_go, dif_pos hlh]
      by_cases hcmp : x < a.getD ((lo + hi) / 2) 0
      · rw [if_pos hcmp]
        obtain ⟨r1, r2, r3, r4⟩ := ih lo ((lo + hi) / 2) (by omega) (by omega)
          (by omega) h4
          (fun i hi' hlen => lt_of_lt_of_le hcmp (hm ((lo + hi) / 2) i hi' hlen))
        exact ⟨r1, by omega, r3, r4⟩
      · rw [if_neg hcmp]
        obtain ⟨r1, r2, r3, r4⟩ := ih ((lo + hi) / 2 + 1) hi (by omega) (by omega) h3
          (fun i hi' => le_trans (hm i ((lo + hi) / 2) (by omega) (by omega))
            (le_of_not_lt hcmp))
          h5
        exact ⟨by omega, r2, r3, r4⟩
    · rw [bisect_right_go, dif_neg hlh]
      exact ⟨Nat.le_refl _, h2, h4, fun i hi' hlen => h5 i (by omega) hlen⟩

lemma bisect_left_spec (a : List Int) (x : Int) (h : a.Pairwise (· ≤ ·)) :
    bisect_left a x ≤ a.length ∧
    (∀ i, i < bisect_left a x → a.getD i 0 < x) ∧
    (∀ i, bisect_left a x ≤ i → i < a.length → x ≤ a.getD i 0) := by
  obtain ⟨r1, r2, r3, r4⟩ := bisect_left_go_spec a x (pairwise_listMono a h)
    a.length 0 a.length (by omega) (by omega) (Nat.le_refl _)
    (fun i hi => absurd hi (by omega))
    (fun i hi hlen => absurd hlen (by omega))
  exact ⟨r2, r3, r4⟩

lemma bisect_right_spec (a : List Int) (x : Int) (h : a.Pairwise (· ≤ ·)) :
    bisect_right a x ≤ a.length ∧
    (∀ i, i < bisect_right a x → a.getD i 0 ≤ x) ∧
    (∀ i, bisect_right a x ≤ i → i < a.length → x < a.getD i 0) := by
  obtain ⟨r1, r2, r3, r4⟩ := bisect_right_go_spec a x (pairwise_listMono a h)
    a.length 0 a.length (by omega) (by omega) (Nat.le_refl _)
    (fun i hi => absurd hi (by omega))
    (fun i hi hlen => absurd hlen (by omega))
  exact ⟨r2, r3, r4⟩

/-- The slice of read positions is empty exactly when no reference position
lies in the closed interval `[s, e]`. -/
lemma read_slice_eq_nil_iff (s e : Int) (reads refs : List Int)
    (hlen : reads.length = refs.length) (hsorted : refs.Pairwise (· ≤ ·)) :
    read_slice (s, e) reads refs = [] ↔ ∀ v ∈ refs, ¬ (s ≤ v ∧ v ≤ e) := by
  obtain ⟨hL1, hL2, hL3⟩ := bisect_left_spec refs s hsorted
  obtain ⟨hR1, hR2, hR3⟩ := bisect_right_spec refs e hsorted
  have hslice : read_slice (s, e) reads refs =
      (reads.drop (bisect_left refs s)).take
        (bisect_right refs e - bisect_left refs s) := rfl
  constructor
  · intro hnil v hv ⟨hs, he⟩
    obtain ⟨i, hilen, hieq⟩ := List.mem_iff_getElem.mp hv
    have hid : refs.getD i 0 = v := by
      simp [List.getD_eq_getElem?_getD, List.getElem?_eq_getElem, hilen, hieq]
    have hiL : bisect_left refs s ≤ i := by
      by_contra hc
      exact absurd (hid ▸ hL2 i (by omega)) (not_lt.mpr hs)
    have hiR : i < bisect_right refs e := by
      by_contra hc
      exact absurd (hid ▸ hR3 i (by omega) hilen) (not_lt.mpr he)
    rw [hslice, List.take_eq_nil_iff] at hnil
    rcases hnil with hnil | hnil
    · omega
    · rw [List.drop_eq_nil_iff] at hnil
      omega
  · intro hno
    rw [hslice, List.take_eq_nil_iff]
    by_cases hLR : bisect_right refs e ≤ bisect_left refs s
    · left; omega
    · exfalso
      have hLlt : bisect_left refs s < bisect_right refs e := by omega
      have hLlen : bisect_left refs s < refs.length := by omega
      have hv : refs.getD (bisect_left refs s) 0 ∈ refs := by
        have : refs.getD (bisect_left refs s) 0 = refs[bisect_left refs s] := by
          simp [List.getD_eq_getElem?_getD, List.getElem?_eq_getElem, hLlen]
        rw [this]
        exact List.getElem_mem hLlen
      exact hno _ hv
        ⟨hL3 (bisect_left refs s) (Nat.le_refl _) hLlen,
          hR2 (bisect_left refs s) hLlt⟩

/-- C2: `get_subsequence_indexes` returns `none` exactly when no entry of
the (non-decreasing) reference positions lies in the closed range
`[s, e]`, for equal-length position lists. -/
theorem get_subsequence_none_iff (s e : Int) (reads refs : List Int)
    (hlen : reads.length = refs.length) (hsorted : refs.Pairwise (· ≤ ·)) :
    get_subsequence_indexes (s, e) (reads, refs) = none ↔
      ∀ v ∈ refs, ¬ (s ≤ v ∧ v ≤ e) := by
  rw [← read_slice_eq_nil_iff s e reads refs hlen hsorted]
  unfold get_subsequence_indexes
  by_cases hnil : read_slice (s, e) reads refs = []
  · simp [hnil]
  · simp [hnil]

theorem get_subsequence_none_iff_witness :
    ([30, 31, 32] : List Int).length = ([1, 2, 3] : List Int).length ∧
    ([1, 2, 3] : List Int).Pairwise (· ≤ ·) ∧
    (get_subsequence_indexes (5, 7) ([30, 31, 32], [1, 2, 3]) = none ↔
      ∀ v ∈ ([1, 2, 3] : List Int), ¬ (5 ≤ v ∧ v ≤ 7)) :=
  ⟨by decide, by decide,
    get_subsequence_none_iff 5 7 [30, 31, 32] [1, 2, 3] (by decide) (by decide)⟩

/-- On a non-empty slice, `get_subsequence_indexes` returns the slice's
head (clamped up to `0` when negative) paired with its last element. -/
lemma get_subsequence_eval (interval : Int × Int) (reads refs : List Int)
    (h : read_slice interval reads refs ≠ []) :
    get_subsequence_indexes interval (reads, refs) =
      some (if (read_slice interval reads refs).head h < 0 then 0
              else (read_slice interval reads refs).head h,
            (read_slice interval reads refs).getLast h) := by
  unfold get_subsequence_indexes
  rw [dif_neg h]

/-- C3: whenever `get_subsequence_indexes` resolves a non-empty slice whose
first read-position value is negative (the `-1` sentinel from a leading
unmatched run), the returned start index is `0` and the end index is the
slice's last value. -/
theorem get_subsequence_clamp (interval : Int × Int) (reads refs : List Int)
    (h : read_slice interval reads refs ≠ [])
    (hneg : (read_slice interval reads refs).head h < 0) :
    get_subsequence_indexes interval (reads, refs) =
      some (0, (read_slice interval reads refs).getLast h) := by
  rw [get_subsequence_eval interval reads refs h, if_pos hneg]

/-- C3 (concrete instance): the claim's example
`resolveRange([2,5], readPositions=[-1,-1,-1,0,0,1], refPositions=[1..6])`
returns `(0, 0)` — clamped. -/
theorem get_subsequence_clamp_witness :
    get_subsequence_indexes (2, 5) ([-1, -1, -1, 0, 0, 1], [1, 2, 3, 4, 5, 6]) =
      some (0, 0) := by
  have hs : read_slice (2, 5) [-1, -1, -1, 0, 0, 1] [1, 2, 3, 4, 5, 6] =
      [-1, -1, 0, 0] := by
    simp [read_slice, ref_interval_indexes, bisect_left, bisect_right,
      bisect_left_go, bisect_right_go]
  have h : read_slice (2, 5) [-1, -1, -1, 0, 0, 1] [1, 2, 3, 4, 5, 6] ≠ [] := by
    rw [hs]; simp
  have hneg :
      (read_slice (2, 5) [-1, -1, -1, 0, 0, 1] [1, 2, 3, 4, 5, 6]).head h < 0 := by
    simp [hs]
  rw [get_subsequence_clamp (2, 5) [-1, -1, -1, 0, 0, 1] [1, 2, 3, 4, 5, 6] h hneg]
  simp [hs, List.getLast_eq_getElem]

/-- C10: only the start index is clamped: whenever the resolved slice of
read positions consists entirely of the `-1` sentinel, the function returns
`(0, -1)` — a start of `0` together with a negative end index — rather than
`none`. -/
theorem get_subsequence_all_sentinel (interval : Int × Int) (reads refs : List Int)
    (h : read_slice interval reads refs ≠ [])
    (hall : ∀ v ∈ read_slice interval reads refs, v = -1) :
    get_subsequence_indexes interval (reads, refs) = some (0, -1) := by
  have hhead := hall _ (List.head_mem h)
  have hlast := hall _ (List.getLast_mem h)
  rw [get_subsequence_eval interval reads refs h, hhead, hlast]
  norm_num

theorem get_subsequence_all_sentinel_witness :
    get_subsequence_indexes (2, 3) ([-1, -1, -1], [2, 2, 3]) = some (0, -1) := by
  have hs : read_slice (2, 3) [-1, -1, -1] [2, 2, 3] = [-1, -1, -1] := by
    simp [read_slice, ref_interval_indexes, bisect_left, bisect_right,
      bisect_left_go, bisect_right_go]
  exact get_subsequence_all_sentinel (2, 3) [-1, -1, -1] [2, 2, 3]
    (by rw [hs]; simp) (by rw [hs]; decide)

end BamSlice
